import Mathlib

/-!
Shallow embedding of the three greedy-algorithm modules of the repository:

* problema_cambio.py            — change making (dar_cambio_voraz)
* problema_mochila_fraccionaria.py — fractional knapsack (mochila_fraccionaria_voraz)
* problema_seleccion_actividades.py — activity selection (seleccion_actividades_voraz)

Python integers are modelled by Int, with Python floor division and
floor modulus modelled by Int.fdiv and Int.fmod.  Python floats are
modelled by exact rationals.  Python dictionaries (insertion ordered,
assignment overwrites in place) are modelled by association lists with
an in-place update.  Python sorted and sorted(reverse=True) are stable
sorts, modelled by List.insertionSort with the corresponding total
preorder, which has the same stability behaviour.
-/

/-! ### problema_cambio.py -/

/-- In-place update of an insertion-ordered association list, matching
Python dictionary assignment: overwrite the value at an existing key in
place, otherwise append the new entry at the end. -/
def updateDict (res : List (Int × Int)) (k v : Int) : List (Int × Int) :=
  match res with
  | [] => [(k, v)]
  | (k', v') :: rest => if k' = k then (k, v) :: rest else (k', v') :: updateDict rest k v

/-- The loop of dar_cambio_voraz: for each coin, if the remaining amount
is at least the coin, record remaining // coin coins and keep
remaining % coin. -/
def darCambioGo : List Int → List (Int × Int) → Int → List (Int × Int)
  | [], resultado, _ => resultado
  | moneda :: rest, resultado, restante =>
    if restante ≥ moneda then
      darCambioGo rest (updateDict resultado moneda (Int.fdiv restante moneda))
        (Int.fmod restante moneda)
    else
      darCambioGo rest resultado restante

/-- Python sorted(l, reverse=True) on integers: stable descending sort. -/
def sortDescInt (l : List Int) : List Int :=
  List.insertionSort (fun a b => b ≤ a) l

instance : DecidableRel (fun a b : Int => b ≤ a) :=
  fun a b => inferInstanceAs (Decidable (b ≤ a))

instance : IsTotal Int (fun a b => b ≤ a) :=
  ⟨fun a b => le_total b a⟩

instance : IsTrans Int (fun a b => b ≤ a) :=
  ⟨fun _ _ _ h h' => le_trans h' h⟩

/-- dar_cambio_voraz from problema_cambio.py. -/
def dar_cambio_voraz (cantidad : Int) (monedas : List Int) : List (Int × Int) :=
  darCambioGo (sortDescInt monedas) [] cantidad

/-- Weighted sum denomination × count of a change dictionary. -/
def dictWeightedSum (res : List (Int × Int)) : Int :=
  (res.map (fun p => p.1 * p.2)).sum

/-- Total number of coins of a change dictionary. -/
def dictCoinCount (res : List (Int × Int)) : Int :=
  (res.map (fun p => p.2)).sum

/-! ### problema_seleccion_actividades.py -/

/-- An activity, as built by Actividad.__init__ (fields in assignment
order; duracion is set to fin - inicio by the constructor). -/
structure Actividad where
  inicio : Int
  fin : Int
  nombre : String
  duracion : Int
deriving DecidableEq

/-- Actividad.__init__: raises ValueError when inicio >= fin (modelled
as none), otherwise yields the activity with duracion = fin - inicio. -/
def Actividad.crear (inicio fin : Int) (nombre : String) : Option Actividad :=
  if inicio ≥ fin then none
  else some ⟨inicio, fin, nombre, fin - inicio⟩

/-- Actividad.traslapa_con: not (self.fin <= otra.inicio or
otra.fin <= self.inicio). -/
def Actividad.traslapa_con (self otra : Actividad) : Bool :=
  !(decide (self.fin ≤ otra.inicio) || decide (otra.fin ≤ self.inicio))

instance : DecidableRel (fun a b : Actividad => a.fin ≤ b.fin) :=
  fun a b => inferInstanceAs (Decidable (a.fin ≤ b.fin))

instance : IsTotal Actividad (fun a b => a.fin ≤ b.fin) :=
  ⟨fun a b => le_total a.fin b.fin⟩

instance : IsTrans Actividad (fun a b => a.fin ≤ b.fin) :=
  ⟨fun _ _ _ h h' => le_trans h h'⟩

/-- Python sorted(actividades, key=lambda x: x.fin): stable ascending
sort by end time. -/
def sortByFin (l : List Actividad) : List Actividad :=
  List.insertionSort (fun a b => a.fin ≤ b.fin) l

/-- The loop of seleccion_actividades_voraz: keep an activity whenever
its start is at least the end of the last kept one. -/
def seleccionGo : List Actividad → Int → List Actividad
  | [], _ => []
  | actividad :: rest, ultimoFin =>
    if actividad.inicio ≥ ultimoFin then
      actividad :: seleccionGo rest actividad.fin
    else
      seleccionGo rest ultimoFin

/-- seleccion_actividades_voraz from problema_seleccion_actividades.py.
The last selected end time starts at the sentinel -1. -/
def seleccion_actividades_voraz (actividades : List Actividad) : List Actividad :=
  match actividades with
  | [] => []
  | _ => seleccionGo (sortByFin actividades) (-1)

/-! ### problema_mochila_fraccionaria.py -/

/-- An item, as built by Articulo.__init__ (the ratio field is stored by
the constructor). -/
structure Articulo where
  peso : ℚ
  valor : ℚ
  nombre : String
  ratio : ℚ
deriving DecidableEq

/-- Articulo.__init__: ratio = valor / peso if peso > 0 else 0. -/
def Articulo.crear (peso valor : ℚ) (nombre : String) : Articulo :=
  ⟨peso, valor, nombre, if 0 < peso then valor / peso else 0⟩

instance : DecidableRel (fun a b : Articulo => b.ratio ≤ a.ratio) :=
  fun a b => inferInstanceAs (Decidable (b.ratio ≤ a.ratio))

instance : IsTotal Articulo (fun a b => b.ratio ≤ a.ratio) :=
  ⟨fun a b => le_total b.ratio a.ratio⟩

instance : IsTrans Articulo (fun a b => b.ratio ≤ a.ratio) :=
  ⟨fun _ _ _ h h' => le_trans h' h⟩

/-- Python sorted(articulos, key=lambda x: x.ratio, reverse=True):
stable descending sort by value/weight ratio. -/
def sortByRatioDesc (l : List Articulo) : List Articulo :=
  List.insertionSort (fun a b => b.ratio ≤ a.ratio) l

/-- The loop of mochila_fraccionaria_voraz: stop when no capacity is
left; take a whole item when it fits, otherwise take the fraction that
exactly fills the remaining capacity (after which the loop stops). -/
def mochilaGo : List Articulo → ℚ → List (Articulo × ℚ) × ℚ
  | [], _ => ([], 0)
  | articulo :: rest, capacidadRestante =>
    if capacidadRestante ≤ 0 then ([], 0)
    else if articulo.peso ≤ capacidadRestante then
      ((articulo, 1) :: (mochilaGo rest (capacidadRestante - articulo.peso)).1,
        articulo.valor + (mochilaGo rest (capacidadRestante - articulo.peso)).2)
    else
      ((articulo, capacidadRestante / articulo.peso) :: [],
        articulo.valor * (capacidadRestante / articulo.peso))

/-- mochila_fraccionaria_voraz from problema_mochila_fraccionaria.py. -/
def mochila_fraccionaria_voraz (articulos : List Articulo) (capacidad : ℚ) :
    List (Articulo × ℚ) × ℚ :=
  mochilaGo (sortByRatioDesc articulos) capacidad

/-- Total weight item.peso × fraction of a selection. -/
def pesoSum (ps : List (Articulo × ℚ)) : ℚ :=
  (ps.map (fun p => p.1.peso * p.2)).sum

/-- Total value item.valor × fraction of a selection. -/
def valorSum (ps : List (Articulo × ℚ)) : ℚ :=
  (ps.map (fun p => p.1.valor * p.2)).sum

/-- Total weight of a list of items. -/
def pesoTotal (l : List Articulo) : ℚ :=
  (l.map Articulo.peso).sum

/-! ### Helper lemmas for the change-making algorithm -/

theorem updateDict_eq_append (res : List (Int × Int)) (k v : Int)
    (h : ∀ p ∈ res, p.1 ≠ k) : updateDict res k v = res ++ [(k, v)] := by
  induction res with
  | nil => rfl
  | cons q rest ih =>
    obtain ⟨k', v'⟩ := q
    have hne : k' ≠ k := h (k', v') (List.mem_cons_self _ _)
    simp [updateDict, hne, ih fun p hp => h p (List.mem_cons_of_mem _ hp)]

theorem mem_updateDict {res : List (Int × Int)} {k v : Int} {p : Int × Int}
    (hp : p ∈ updateDict res k v) : p = (k, v) ∨ p ∈ res := by
  induction res with
  | nil => simpa [updateDict] using hp
  | cons q rest ih =>
    obtain ⟨k', v'⟩ := q
    by_cases hk : k' = k
    · simp only [updateDict, if_pos hk] at hp
      rcases List.mem_cons.mp hp with h | h
      · exact Or.inl h
      · exact Or.inr (List.mem_cons_of_mem _ h)
    · simp only [updateDict, if_neg hk] at hp
      rcases List.mem_cons.mp hp with h | h
      · exact Or.inr (h ▸ List.mem_cons_self _ _)
      · rcases ih h with h' | h'
        · exact Or.inl h'
        · exact Or.inr (List.mem_cons_of_mem _ h')

theorem darCambioGo_zero (cs : List Int) (res : List (Int × Int))
    (hpos : ∀ c ∈ cs, 0 < c) : darCambioGo cs res 0 = res := by
  induction cs with
  | nil => rfl
  | cons c cs ih =>
    have hc : 0 < c := hpos c (List.mem_cons_self c cs)
    rw [darCambioGo, if_neg (by omega)]
    exact ih fun x hx => hpos x (List.mem_cons_of_mem _ hx)

theorem dictWeightedSum_append (res l : List (Int × Int)) :
    dictWeightedSum (res ++ l) = dictWeightedSum res + dictWeightedSum l := by
  simp [dictWeightedSum]

/-- Weighted-sum invariant of the change loop: when all coins are
positive, one of them is 1, and the remaining amount is non-negative and
below every key already recorded, the loop adds exactly the remaining
amount to the weighted sum of the dictionary. -/
theorem darCambioGo_sum (cs : List Int) (res : List (Int × Int)) (r : Int)
    (hpos : ∀ c ∈ cs, 0 < c) (hone : (1 : Int) ∈ cs) (hr : 0 ≤ r)
    (hinv : ∀ p ∈ res, r < p.1) :
    dictWeightedSum (darCambioGo cs res r) = dictWeightedSum res + r := by
  induction cs generalizing res r with
  | nil => simp at hone
  | cons c cs ih =>
    have hc : 0 < c := hpos c (List.mem_cons_self c cs)
    have hpos' : ∀ x ∈ cs, 0 < x := fun x hx => hpos x (List.mem_cons_of_mem _ hx)
    by_cases hge : r ≥ c
    · have hnotin : ∀ p ∈ res, p.1 ≠ c := by
        intro p hp
        have := hinv p hp
        omega
      rw [darCambioGo, if_pos hge, updateDict_eq_append res c _ hnotin]
      have hm0 : 0 ≤ Int.fmod r c := Int.fmod_nonneg hr hc.le
      have hmlt : Int.fmod r c < c := Int.fmod_lt_of_pos r hc
      have hinv' : ∀ p ∈ res ++ [(c, Int.fdiv r c)], Int.fmod r c < p.1 := by
        intro p hp
        rcases List.mem_append.mp hp with h | h
        · exact lt_trans (lt_of_lt_of_le hmlt hge) (hinv p h)
        · simp at h
          rw [h]
          exact hmlt
      rcases List.mem_cons.mp hone with h1 | h1
      · subst h1
        rw [Int.fmod_one, darCambioGo_zero cs _ hpos', dictWeightedSum_append]
        simp [dictWeightedSum, Int.fdiv_one]
      · rw [ih _ _ hpos' h1 hm0 hinv', dictWeightedSum_append]
        have hdm := Int.fdiv_add_fmod r c
        simp only [dictWeightedSum, List.map, List.sum_cons, List.sum_nil]
        linarith
    · rw [darCambioGo, if_neg hge]
      rcases List.mem_cons.mp hone with h1 | h1
      · have hr0 : r = 0 := by omega
        subst hr0
        rw [darCambioGo_zero cs _ hpos']
        omega
      · exact ih _ _ hpos' h1 hr hinv

/-- Every count recorded by the change loop is at least 1 when all
coins are positive. -/
theorem darCambioGo_counts (cs : List Int) (res : List (Int × Int)) (r : Int)
    (hpos : ∀ c ∈ cs, 0 < c) (hres : ∀ p ∈ res, 1 ≤ p.2) :
    ∀ p ∈ darCambioGo cs res r, 1 ≤ p.2 := by
  induction cs generalizing res r with
  | nil => simpa [darCambioGo] using hres
  | cons c cs ih =>
    have hc : 0 < c := hpos c (List.mem_cons_self c cs)
    have hpos' : ∀ x ∈ cs, 0 < x := fun x hx => hpos x (List.mem_cons_of_mem _ hx)
    by_cases hge : r ≥ c
    · rw [darCambioGo, if_pos hge]
      apply ih _ _ hpos'
      intro p hp
      rcases mem_updateDict hp with h | h
      · rw [h]
        show 1 ≤ Int.fdiv r c
        rw [Int.fdiv_eq_ediv r hc.le]
        exact (Int.le_ediv_iff_mul_le hc).mpr (by omega)
      · exact hres p h
    · rw [darCambioGo, if_neg hge]
      exact ih _ _ hpos' hres

/-- Emptiness of the change loop for a remaining amount below every
(positive) coin. -/
theorem darCambioGo_skip_all (cantidad : Int) :
    ∀ cs : List Int, (∀ c ∈ cs, cantidad < c) → ∀ res, darCambioGo cs res cantidad = res := by
  intro cs
  induction cs with
  | nil => intro _ res; rfl
  | cons c cs ih =>
    intro hcs res
    rw [darCambioGo, if_neg (by have := hcs c (List.mem_cons_self c cs); omega)]
    exact ih (fun x hx => hcs x (List.mem_cons_of_mem _ hx)) res

/-- The knapsack loop with no positive capacity selects nothing. -/
theorem mochilaGo_nonpos (l : List Articulo) (c : ℚ) (hc : c ≤ 0) :
    mochilaGo l c = ([], 0) := by
  cases l with
  | nil => rfl
  | cons a rest => rw [mochilaGo, if_pos hc]

/-- Claim C6: for every non-negative amount and every list of positive
denominations containing 1, dar_cambio_voraz records only counts ≥ 1 and
its weighted sum equals the amount; dar_cambio_voraz 0 [25, 10, 5, 1]
is the empty mapping. -/
theorem claim_C6 (cantidad : Int) (monedas : List Int)
    (hpos : ∀ c ∈ monedas, 0 < c) (hone : (1 : Int) ∈ monedas)
    (h0 : 0 ≤ cantidad) :
    (∀ p ∈ dar_cambio_voraz cantidad monedas, 1 ≤ p.2) ∧
    dictWeightedSum (dar_cambio_voraz cantidad monedas) = cantidad ∧
    dar_cambio_voraz 0 [25, 10, 5, 1] = [] := by
  have hpos' : ∀ c ∈ sortDescInt monedas, 0 < c :=
    fun c hc => hpos c ((List.mem_insertionSort _).mp hc)
  have hone' : (1 : Int) ∈ sortDescInt monedas :=
    (List.mem_insertionSort _).mpr hone
  refine ⟨?_, ?_, by decide⟩
  · exact darCambioGo_counts _ [] cantidad hpos' (by simp)
  · have h := darCambioGo_sum (sortDescInt monedas) [] cantidad hpos' hone' h0 (by simp)
    simpa [dar_cambio_voraz, dictWeightedSum] using h

theorem claim_C6_witness :
    (∀ p ∈ dar_cambio_voraz 67 [25, 10, 5, 1], 1 ≤ p.2) ∧
    dictWeightedSum (dar_cambio_voraz 67 [25, 10, 5, 1]) = 67 := by
  have h := claim_C6 67 [25, 10, 5, 1] (by decide) (by decide) (by norm_num)
  exact ⟨h.1, h.2.1⟩

/-- Claim C3: for denominations [25, 10, 5, 1] and every amount in
[0, 10000], the returned mapping has weighted sum equal to the amount
and uses the minimum possible number of coins over all exact
representations 25q + 10d + 5n + p of the amount; in particular at 67
it returns {25: 2, 10: 1, 5: 1, 1: 2}, 6 coins in total. -/
theorem claim_C3 (a : Int) (h0 : 0 ≤ a) (hub : a ≤ 10000) :
    dictWeightedSum (dar_cambio_voraz a [25, 10, 5, 1]) = a ∧
    (∀ q d n p : ℕ, 25 * (q : Int) + 10 * d + 5 * n + p = a →
      dictCoinCount (dar_cambio_voraz a [25, 10, 5, 1]) ≤ q + d + n + p) ∧
    dar_cambio_voraz 67 [25, 10, 5, 1] = [(25, 2), (10, 1), (5, 1), (1, 2)] ∧
    dictCoinCount (dar_cambio_voraz 67 [25, 10, 5, 1]) = 6 := by
  refine ⟨?_, ?_, by decide, by decide⟩
  · have h := darCambioGo_sum (sortDescInt [25, 10, 5, 1]) [] a
      (by decide) (by decide) h0 (by simp)
    simpa [dar_cambio_voraz, dictWeightedSum] using h
  · intro q d n p h
    clear hub
    have hs : sortDescInt [25, 10, 5, 1] = [25, 10, 5, 1] := by decide
    unfold dar_cambio_voraz
    rw [hs]
    simp only [darCambioGo, updateDict]
    split_ifs <;>
      simp_all [dictCoinCount, Int.fdiv_eq_ediv, Int.fmod_eq_emod] <;>
      omega

theorem claim_C3_witness :
    dictWeightedSum (dar_cambio_voraz 67 [25, 10, 5, 1]) = 67 ∧
    dictCoinCount (dar_cambio_voraz 67 [25, 10, 5, 1]) ≤ 2 + 1 + 1 + 2 := by
  obtain ⟨hsum, hmin, -, -⟩ := claim_C3 67 (by norm_num) (by norm_num)
  exact ⟨hsum, by exact_mod_cast hmin 2 1 1 2 (by norm_num)⟩

/-- Claim C8 counterexample: for the negative amount -1 and the
denomination list [-1], dar_cambio_voraz returns the non-empty mapping
{-1: 1}, so the claim as stated (empty mapping for every negative
amount and any denomination list) is false. -/
theorem claim_C8_counterexample :
    dar_cambio_voraz (-1) [-1] = [(-1, 1)] ∧ dar_cambio_voraz (-1) [-1] ≠ [] := by
  constructor <;> decide

/-- Claim C8 (amended): for every negative amount and every list of
positive denominations dar_cambio_voraz returns the empty mapping, and
for every item list and every negative capacity
mochila_fraccionaria_voraz returns the empty selection with total value
0. -/
theorem claim_C8 (cantidad : Int) (monedas : List Int)
    (articulos : List Articulo) (capacidad : ℚ)
    (hneg : cantidad < 0) (hpos : ∀ c ∈ monedas, 0 < c) (hcap : capacidad < 0) :
    dar_cambio_voraz cantidad monedas = [] ∧
    mochila_fraccionaria_voraz articulos capacidad = ([], 0) := by
  constructor
  · exact darCambioGo_skip_all cantidad _
      (fun c hc => lt_of_lt_of_le hneg (hpos c ((List.mem_insertionSort _).mp hc)).le) []
  · exact mochilaGo_nonpos _ _ hcap.le

theorem claim_C8_witness :
    dar_cambio_voraz (-5) [25, 10, 5, 1] = [] ∧
    mochila_fraccionaria_voraz [] (-3) = ([], 0) :=
  claim_C8 (-5) [25, 10, 5, 1] [] (-3) (by norm_num) (by decide) (by norm_num)

/-- Claim C7: Actividad.crear fails (none) exactly when inicio ≥ fin,
and for inicio < fin succeeds with the given start and end and
duracion = fin - inicio. -/
theorem claim_C7 (inicio fin : Int) (nombre : String) :
    (Actividad.crear inicio fin nombre = none ↔ fin ≤ inicio) ∧
    (inicio < fin →
      Actividad.crear inicio fin nombre = some ⟨inicio, fin, nombre, fin - inicio⟩) := by
  refine ⟨⟨fun h => ?_, fun h => ?_⟩, fun h => ?_⟩
  · by_contra hc
    rw [Actividad.crear, if_neg (by omega)] at h
    simp at h
  · rw [Actividad.crear, if_pos (by omega)]
  · rw [Actividad.crear, if_neg (by omega)]

theorem claim_C7_witness :
    (Actividad.crear 3 2 "a" = none ↔ (2 : Int) ≤ 3) ∧
    Actividad.crear 0 2 "b" = some ⟨0, 2, "b", 2 - 0⟩ :=
  ⟨(claim_C7 3 2 "a").1, (claim_C7 0 2 "b").2 (by norm_num)⟩

/-- Claim C9: Articulo.crear is total; the stored ratio is 0 whenever
peso ≤ 0 (including peso = 0, so the value valor / peso is never
formed on a zero weight) and valor / peso whenever peso > 0, while peso
and valor are stored unchanged. -/
theorem claim_C9 (peso valor : ℚ) (nombre : String) :
    ((peso ≤ 0 → (Articulo.crear peso valor nombre).ratio = 0) ∧
     (0 < peso → (Articulo.crear peso valor nombre).ratio = valor / peso)) ∧
    (Articulo.crear peso valor nombre).peso = peso ∧
    (Articulo.crear peso valor nombre).valor = valor := by
  refine ⟨⟨fun h => ?_, fun h => ?_⟩, rfl, rfl⟩
  · simp [Articulo.crear, not_lt.mpr h]
  · simp [Articulo.crear, h]

theorem claim_C9_witness :
    (Articulo.crear 0 5 "x").ratio = 0 ∧ (Articulo.crear 2 5 "y").ratio = 5 / 2 :=
  ⟨(claim_C9 0 5 "x").1.1 le_rfl, (claim_C9 2 5 "y").1.2 (by norm_num)⟩

/-- Claim C10: the three algorithms are pure functions of their inputs:
equal inputs give identical outputs, including the order of the
returned sequences (the embedded sorts are the same deterministic
stable sorts Python uses). -/
theorem claim_C10 :
    (∀ c₁ c₂ : Int, ∀ m₁ m₂ : List Int, c₁ = c₂ → m₁ = m₂ →
      dar_cambio_voraz c₁ m₁ = dar_cambio_voraz c₂ m₂) ∧
    (∀ l₁ l₂ : List Articulo, ∀ k₁ k₂ : ℚ, l₁ = l₂ → k₁ = k₂ →
      mochila_fraccionaria_voraz l₁ k₁ = mochila_fraccionaria_voraz l₂ k₂) ∧
    (∀ a₁ a₂ : List Actividad, a₁ = a₂ →
      seleccion_actividades_voraz a₁ = seleccion_actividades_voraz a₂) :=
  ⟨fun _ _ _ _ h h' => by rw [h, h'],
   fun _ _ _ _ h h' => by rw [h, h'],
   fun _ _ h => by rw [h]⟩

theorem claim_C10_witness :
    dar_cambio_voraz 67 [25, 10, 5, 1] = dar_cambio_voraz 67 [25, 10, 5, 1] ∧
    mochila_fraccionaria_voraz [] 1 = mochila_fraccionaria_voraz [] 1 ∧
    seleccion_actividades_voraz [] = seleccion_actividades_voraz [] :=
  ⟨claim_C10.1 67 67 _ _ rfl rfl, claim_C10.2.1 [] [] 1 1 rfl rfl,
   claim_C10.2.2 [] [] rfl⟩

/-! ### Helper lemmas for the activity-selection algorithm -/

theorem seleccionGo_sublist (s : List Actividad) (lb : Int) :
    (seleccionGo s lb).Sublist s := by
  induction s generalizing lb with
  | nil => simp [seleccionGo]
  | cons a rest ih =>
    rw [seleccionGo]
    by_cases h : a.inicio ≥ lb
    · rw [if_pos h]
      exact (ih a.fin).cons₂ a
    · rw [if_neg h]
      exact (ih lb).cons a

/-- Every activity kept by the greedy loop on a list sorted by end time
starts no earlier than the incoming bound. -/
theorem seleccionGo_lb (s : List Actividad) (lb : Int)
    (hs : List.Pairwise (fun a b => a.fin ≤ b.fin) s)
    (hlb : ∀ x ∈ s, lb ≤ x.fin) :
    ∀ b ∈ seleccionGo s lb, lb ≤ b.inicio := by
  induction s generalizing lb with
  | nil => intro b hb; simp [seleccionGo] at hb
  | cons a rest ih =>
    intro b hb
    rw [seleccionGo] at hb
    by_cases h : a.inicio ≥ lb
    · rw [if_pos h] at hb
      rcases List.mem_cons.mp hb with rfl | hb'
      · exact h
      · have h1 : a.fin ≤ b.inicio :=
          ih a.fin hs.of_cons ((List.pairwise_cons.mp hs).1) b hb'
        have h2 : lb ≤ a.fin := hlb a (List.mem_cons_self a rest)
        omega
    · rw [if_neg h] at hb
      exact ih lb hs.of_cons (fun x hx => hlb x (List.mem_cons_of_mem _ hx)) b hb

/-- On a list sorted by end time, the greedy loop keeps activities whose
end is at most the start of every later kept activity. -/
theorem seleccionGo_pairwise (s : List Actividad) (lb : Int)
    (hs : List.Pairwise (fun a b => a.fin ≤ b.fin) s) :
    List.Pairwise (fun a b => a.fin ≤ b.inicio) (seleccionGo s lb) := by
  induction s generalizing lb with
  | nil => simp [seleccionGo]
  | cons a rest ih =>
    rw [seleccionGo]
    by_cases h : a.inicio ≥ lb
    · rw [if_pos h]
      exact List.Pairwise.cons
        (seleccionGo_lb rest a.fin hs.of_cons ((List.pairwise_cons.mp hs).1))
        (ih a.fin hs.of_cons)
    · rw [if_neg h]
      exact ih lb hs.of_cons

/-- Greedy stays ahead: on a list sorted by end time whose activities
all satisfy inicio < fin, the greedy loop keeps at least as many
activities as any non-overlapping sub-list whose activities all start
no earlier than the bound. -/
theorem seleccionGo_maximal (s : List Actividad) (lb : Int) (t : List Actividad)
    (hs : List.Pairwise (fun a b => a.fin ≤ b.fin) s)
    (hval : ∀ a ∈ s, a.inicio < a.fin)
    (hsub : t.Sublist s)
    (hlb : ∀ a ∈ t, lb ≤ a.inicio)
    (hnov : List.Pairwise (fun a b => a.fin ≤ b.inicio ∨ b.fin ≤ a.inicio) t) :
    t.length ≤ (seleccionGo s lb).length := by
  induction s generalizing lb t with
  | nil =>
    rw [List.sublist_nil.mp hsub]
    simp
  | cons a rest ih =>
    have hval' : ∀ x ∈ rest, x.inicio < x.fin :=
      fun x hx => hval x (List.mem_cons_of_mem _ hx)
    rw [seleccionGo]
    by_cases h : a.inicio ≥ lb
    · rw [if_pos h]
      cases hsub with
      | cons _ hsub' =>
        cases t with
        | nil => simp
        | cons b t'' =>
          have hbrest : b ∈ rest := hsub'.subset (List.mem_cons_self b t'')
          have hsorted_t : List.Pairwise (fun x y => x.fin ≤ y.fin) (b :: t'') :=
            List.Pairwise.sublist hsub' hs.of_cons
          have hstep : ∀ c ∈ t'', a.fin ≤ c.inicio := by
            intro c hc
            have hbfin : b.fin ≤ c.fin := (List.pairwise_cons.mp hsorted_t).1 c hc
            have hafin : a.fin ≤ b.fin := (List.pairwise_cons.mp hs).1 b hbrest
            have hbval : b.inicio < b.fin := hval b (List.mem_cons_of_mem _ hbrest)
            rcases (List.pairwise_cons.mp hnov).1 c hc with h1 | h1 <;> omega
          have ht'' := ih a.fin t'' hs.of_cons hval'
            ((List.sublist_cons_self b t'').trans hsub') hstep hnov.of_cons
          simpa using Nat.succ_le_succ ht''
      | @cons₂ t' _ _ hsub' =>
        have hstep : ∀ c ∈ t', a.fin ≤ c.inicio := by
          intro c hc
          have hafin : a.fin ≤ c.fin := (List.pairwise_cons.mp hs).1 c (hsub'.subset hc)
          have haval : a.inicio < a.fin := hval a (List.mem_cons_self a rest)
          rcases (List.pairwise_cons.mp hnov).1 c hc with h1 | h1 <;> omega
        have ht' := ih a.fin t' hs.of_cons hval' hsub' hstep hnov.of_cons
        simpa using Nat.succ_le_succ ht'
    · rw [if_neg h]
      cases hsub with
      | cons _ hsub' => exact ih lb t hs.of_cons hval' hsub' hlb hnov
      | @cons₂ t' _ _ hsub' => exact absurd (hlb a (List.mem_cons_self a t')) h

/-- traslapa_con is false exactly on the half-open non-overlap
condition. -/
theorem traslapa_con_eq_false (a b : Actividad) :
    a.traslapa_con b = false ↔ (a.fin ≤ b.inicio ∨ b.fin ≤ a.inicio) := by
  simp only [Actividad.traslapa_con, Bool.not_eq_false', Bool.or_eq_true,
    decide_eq_true_eq]

/-- traslapa_con is true exactly on the half-open overlap condition. -/
theorem traslapa_con_eq_true (a b : Actividad) :
    a.traslapa_con b = true ↔ ¬(a.fin ≤ b.inicio ∨ b.fin ≤ a.inicio) := by
  simp [Actividad.traslapa_con, not_or]

theorem traslapa_con_false_symm {a b : Actividad}
    (h : a.traslapa_con b = false) : b.traslapa_con a = false := by
  rw [traslapa_con_eq_false] at h ⊢
  tauto

/-- The selection is sorted by end time and each selected activity ends
no later than every later selected one starts. -/
theorem seleccion_sorted_pairwise (acts : List Actividad) :
    List.Pairwise (fun a b => a.fin ≤ b.fin) (seleccion_actividades_voraz acts) ∧
    List.Pairwise (fun a b => a.fin ≤ b.inicio) (seleccion_actividades_voraz acts) := by
  cases acts with
  | nil => exact ⟨List.Pairwise.nil, List.Pairwise.nil⟩
  | cons a rest =>
    have hs : List.Pairwise (fun x y : Actividad => x.fin ≤ y.fin) (sortByFin (a :: rest)) :=
      List.sorted_insertionSort _ _
    exact ⟨List.Pairwise.sublist (seleccionGo_sublist _ _) hs,
      seleccionGo_pairwise _ _ hs⟩

/-- Claim C5: for every input list the returned selection is sorted by
increasing end time and pairwise non-overlapping under the half-open
relation, and traslapa_con computes exactly that relation. -/
theorem claim_C5 (actividades : List Actividad) :
    List.Pairwise (fun a b => a.fin ≤ b.fin) (seleccion_actividades_voraz actividades) ∧
    List.Pairwise (fun a b => a.traslapa_con b = false)
      (seleccion_actividades_voraz actividades) ∧
    (∀ a b : Actividad,
      a.traslapa_con b = true ↔ ¬(a.fin ≤ b.inicio ∨ b.fin ≤ a.inicio)) := by
  obtain ⟨h1, h2⟩ := seleccion_sorted_pairwise actividades
  refine ⟨h1, ?_, traslapa_con_eq_true⟩
  exact h2.imp fun h => (traslapa_con_eq_false _ _).mpr (Or.inl h)

/-- Claim C1 counterexample: on the single valid activity (-5, -3) with
a negative start time, the algorithm returns the empty list instead of
that activity, because the sentinel last-end is the magic constant -1. -/
theorem claim_C1_counterexample :
    (Actividad.mk (-5) (-3) "" 2).inicio < (Actividad.mk (-5) (-3) "" 2).fin ∧
    seleccion_actividades_voraz [Actividad.mk (-5) (-3) "" 2] = [] ∧
    seleccion_actividades_voraz [Actividad.mk (-5) (-3) "" 2] ≠
      [Actividad.mk (-5) (-3) "" 2] := by
  refine ⟨by norm_num, by decide, by decide⟩

/-- Claim C1 (amended): for every list of activities with start < end
and non-negative start times, the selection is pairwise non-overlapping,
is a sub-multiset of the input, and has maximum cardinality among all
pairwise non-overlapping sub-multisets of the input; the empty input
gives the empty list and a single-activity input gives that activity. -/
theorem claim_C1 (acts : List Actividad)
    (hval : ∀ a ∈ acts, a.inicio < a.fin)
    (hnn : ∀ a ∈ acts, 0 ≤ a.inicio) :
    List.Pairwise (fun a b => a.traslapa_con b = false)
      (seleccion_actividades_voraz acts) ∧
    (seleccion_actividades_voraz acts).Subperm acts ∧
    (∀ t : List Actividad, t.Subperm acts →
      List.Pairwise (fun a b => a.traslapa_con b = false) t →
      t.length ≤ (seleccion_actividades_voraz acts).length) ∧
    (acts = [] → seleccion_actividades_voraz acts = []) ∧
    (∀ a : Actividad, acts = [a] → seleccion_actividades_voraz acts = [a]) := by
  have hnov := (seleccion_sorted_pairwise acts).2.imp
    fun h => (traslapa_con_eq_false _ _).mpr (Or.inl h)
  cases acts with
  | nil =>
    refine ⟨hnov, List.nil_subperm, ?_, fun _ => rfl, ?_⟩
    · intro t ht _
      rw [List.subperm_nil.mp ht]
      exact Nat.le_refl _
    · intro a ha
      exact absurd ha (by simp)
  | cons a0 rest =>
    have hperm : (sortByFin (a0 :: rest)).Perm (a0 :: rest) :=
      List.perm_insertionSort _ _
    have hs : List.Pairwise (fun x y : Actividad => x.fin ≤ y.fin)
        (sortByFin (a0 :: rest)) :=
      List.sorted_insertionSort _ _
    have hvals : ∀ x ∈ sortByFin (a0 :: rest), x.inicio < x.fin :=
      fun x hx => hval x (hperm.subset hx)
    refine ⟨hnov, ?_, ?_, ?_, ?_⟩
    · exact ((seleccionGo_sublist _ (-1)).subperm).trans hperm.subperm
    · intro t hsubp hnovt
      have hsubp' : t.Subperm (sortByFin (a0 :: rest)) :=
        hsubp.trans hperm.symm.subperm
      obtain ⟨u, hu, husub⟩ := hsubp'
      have hnovu : List.Pairwise (fun a b => a.traslapa_con b = false) u :=
        (hu.pairwise_iff fun h => traslapa_con_false_symm h).mpr hnovt
      have hlbu : ∀ x ∈ u, (-1 : Int) ≤ x.inicio := by
        intro x hx
        have := hnn x (hperm.subset (husub.subset hx))
        omega
      have hnovu' : List.Pairwise
          (fun a b => a.fin ≤ b.inicio ∨ b.fin ≤ a.inicio) u :=
        hnovu.imp fun h => (traslapa_con_eq_false _ _).mp h
      have hmax := seleccionGo_maximal (sortByFin (a0 :: rest)) (-1) u
        hs hvals husub hlbu hnovu'
      calc t.length = u.length := hu.length_eq.symm
        _ ≤ _ := hmax
    · intro h
      exact absurd h (by simp)
    · intro a ha
      obtain ⟨rfl, rfl⟩ : a0 = a ∧ rest = [] := by simpa using ha
      have h0 : (0 : Int) ≤ a0.inicio := hnn a0 (List.mem_cons_self _ _)
      show seleccionGo (sortByFin [a0]) (-1) = [a0]
      have hsort : sortByFin [a0] = [a0] := rfl
      rw [hsort, seleccionGo, if_pos (by omega), seleccionGo]

theorem claim_C1_witness :
    seleccion_actividades_voraz [Actividad.mk 3 5 "B" 2] = [Actividad.mk 3 5 "B" 2] :=
  (claim_C1 [Actividad.mk 3 5 "B" 2] (by decide) (by decide)).2.2.2.2 _ rfl

/-! ### Helper lemmas for the fractional-knapsack algorithm -/

/-- Every selected fraction is in (0, 1] when weights are positive. -/
theorem mochilaGo_frac_bounds (s : List Articulo) (cap : ℚ)
    (hw : ∀ a ∈ s, 0 < a.peso) :
    ∀ p ∈ (mochilaGo s cap).1, 0 < p.2 ∧ p.2 ≤ 1 := by
  induction s generalizing cap with
  | nil => intro p hp; simp [mochilaGo] at hp
  | cons a rest ih =>
    intro p hp
    rw [mochilaGo] at hp
    by_cases hc : cap ≤ 0
    · rw [if_pos hc] at hp
      simp at hp
    · by_cases hfit : a.peso ≤ cap
      · rw [if_neg hc, if_pos hfit] at hp
        rcases List.mem_cons.mp hp with rfl | hp'
        · norm_num
        · exact ih (cap - a.peso) (fun x hx => hw x (List.mem_cons_of_mem _ hx)) p hp'
      · rw [if_neg hc, if_neg hfit] at hp
        rcases List.mem_cons.mp hp with rfl | hp'
        · have hap : 0 < a.peso := hw a (List.mem_cons_self a rest)
          have hcpos : 0 < cap := lt_of_not_le hc
          exact ⟨div_pos hcpos hap, le_of_lt ((div_lt_one hap).mpr (lt_of_not_le hfit))⟩
        · exact absurd hp' (List.not_mem_nil p)

/-- The selected weight never exceeds the capacity. -/
theorem mochilaGo_pesoSum_le (s : List Articulo) (cap : ℚ)
    (hw : ∀ a ∈ s, 0 < a.peso) (hcap : 0 ≤ cap) :
    pesoSum (mochilaGo s cap).1 ≤ cap := by
  induction s generalizing cap with
  | nil => simpa [mochilaGo, pesoSum] using hcap
  | cons a rest ih =>
    rw [mochilaGo]
    by_cases hc : cap ≤ 0
    · rw [if_pos hc]
      simpa [pesoSum] using hcap
    · by_cases hfit : a.peso ≤ cap
      · rw [if_neg hc, if_pos hfit]
        have hle := ih (cap - a.peso)
          (fun x hx => hw x (List.mem_cons_of_mem _ hx)) (by linarith)
        simp only [pesoSum, List.map_cons, List.sum_cons] at hle ⊢
        linarith
      · rw [if_neg hc, if_neg hfit]
        have hap : 0 < a.peso := hw a (List.mem_cons_self a rest)
        have hcancel : a.peso * (cap / a.peso) = cap := by field_simp
        simp only [pesoSum, List.map_cons, List.map_nil, List.sum_cons, List.sum_nil]
        linarith

/-- When the items' total weight exceeds the capacity, the selection
fills the capacity exactly. -/
theorem mochilaGo_pesoSum_eq (s : List Articulo) (cap : ℚ)
    (hw : ∀ a ∈ s, 0 < a.peso) (hcap : 0 ≤ cap) (hover : cap < pesoTotal s) :
    pesoSum (mochilaGo s cap).1 = cap := by
  induction s generalizing cap with
  | nil =>
    exfalso
    simp [pesoTotal] at hover
    linarith
  | cons a rest ih =>
    rw [mochilaGo]
    by_cases hc : cap ≤ 0
    · rw [if_pos hc]
      have : cap = 0 := le_antisymm hc hcap
      simp [pesoSum, this]
    · by_cases hfit : a.peso ≤ cap
      · rw [if_neg hc, if_pos hfit]
        have hov' : cap - a.peso < pesoTotal rest := by
          simp only [pesoTotal, List.map_cons, List.sum_cons] at hover ⊢
          linarith
        have heq := ih (cap - a.peso)
          (fun x hx => hw x (List.mem_cons_of_mem _ hx)) (by linarith) hov'
        simp only [pesoSum, List.map_cons, List.sum_cons] at heq ⊢
        linarith
      · rw [if_neg hc, if_neg hfit]
        have hap : 0 < a.peso := hw a (List.mem_cons_self a rest)
        have hcancel : a.peso * (cap / a.peso) = cap := by field_simp
        simp only [pesoSum, List.map_cons, List.map_nil, List.sum_cons, List.sum_nil]
        linarith

/-- All selected fractions except possibly the last one equal 1. -/
theorem mochilaGo_dropLast (s : List Articulo) (cap : ℚ) :
    ∀ p ∈ (mochilaGo s cap).1.dropLast, p.2 = 1 := by
  induction s generalizing cap with
  | nil => intro p hp; simp [mochilaGo] at hp
  | cons a rest ih =>
    intro p hp
    rw [mochilaGo] at hp
    by_cases hc : cap ≤ 0
    · rw [if_pos hc] at hp
      simp at hp
    · by_cases hfit : a.peso ≤ cap
      · rw [if_neg hc, if_pos hfit] at hp
        cases hrest : (mochilaGo rest (cap - a.peso)).1 with
        | nil =>
          rw [hrest] at hp
          simp at hp
        | cons q qs =>
          rw [hrest, List.dropLast_cons₂] at hp
          rcases List.mem_cons.mp hp with rfl | hp'
          · rfl
          · exact ih (cap - a.peso) p (by rw [hrest]; exact hp')
      · rw [if_neg hc, if_neg hfit] at hp
        simp at hp

/-- Claim C4: for positive weights and capacity ≥ 0, every selected
fraction lies in (0, 1], the selected weight is at most the capacity
with equality when the total weight exceeds the capacity, and every
selected entry except possibly the last has fraction 1. -/
theorem claim_C4 (articulos : List Articulo) (capacidad : ℚ)
    (hw : ∀ a ∈ articulos, 0 < a.peso) (hcap : 0 ≤ capacidad) :
    (∀ p ∈ (mochila_fraccionaria_voraz articulos capacidad).1, 0 < p.2 ∧ p.2 ≤ 1) ∧
    pesoSum (mochila_fraccionaria_voraz articulos capacidad).1 ≤ capacidad ∧
    (capacidad < pesoTotal articulos →
      pesoSum (mochila_fraccionaria_voraz articulos capacidad).1 = capacidad) ∧
    (∀ p ∈ (mochila_fraccionaria_voraz articulos capacidad).1.dropLast, p.2 = 1) := by
  have hperm := List.perm_insertionSort
    (fun a b : Articulo => b.ratio ≤ a.ratio) articulos
  have hw' : ∀ a ∈ sortByRatioDesc articulos, 0 < a.peso :=
    fun a ha => hw a (hperm.subset ha)
  refine ⟨mochilaGo_frac_bounds _ _ hw', mochilaGo_pesoSum_le _ _ hw' hcap, ?_,
    mochilaGo_dropLast _ _⟩
  intro hover
  apply mochilaGo_pesoSum_eq _ _ hw' hcap
  have hpt : pesoTotal (sortByRatioDesc articulos) = pesoTotal articulos :=
    (hperm.map Articulo.peso).sum_eq
  rw [hpt]
  exact hover

theorem claim_C4_witness :
    pesoSum (mochila_fraccionaria_voraz [Articulo.crear 10 60 ""] 4).1 ≤ 4 ∧
    pesoSum (mochila_fraccionaria_voraz [Articulo.crear 10 60 ""] 4).1 = 4 := by
  have h := claim_C4 [Articulo.crear 10 60 ""] 4
    (by intro a ha; rcases List.mem_singleton.mp ha with rfl; norm_num [Articulo.crear])
    (by norm_num)
  exact ⟨h.2.1, h.2.2.1 (by norm_num [pesoTotal, Articulo.crear])⟩

/-- The greedy knapsack value is non-negative for non-negative item
values and positive weights. -/
theorem mochilaGo_valor_nonneg (s : List Articulo) (c : ℚ)
    (hw : ∀ a ∈ s, 0 < a.peso) (hv : ∀ a ∈ s, 0 ≤ a.valor) :
    0 ≤ (mochilaGo s c).2 := by
  induction s generalizing c with
  | nil => simp [mochilaGo]
  | cons a rest ih =>
    have hw' : ∀ x ∈ rest, 0 < x.peso := fun x hx => hw x (List.mem_cons_of_mem _ hx)
    have hv' : ∀ x ∈ rest, 0 ≤ x.valor := fun x hx => hv x (List.mem_cons_of_mem _ hx)
    rw [mochilaGo]
    by_cases hc : c ≤ 0
    · rw [if_pos hc]
    · by_cases hfit : a.peso ≤ c
      · rw [if_neg hc, if_pos hfit]
        exact add_nonneg (hv a (List.mem_cons_self a rest)) (ih (c - a.peso) hw' hv')
      · rw [if_neg hc, if_neg hfit]
        have hap : 0 < a.peso := hw a (List.mem_cons_self a rest)
        exact mul_nonneg (hv a (List.mem_cons_self a rest))
          (le_of_lt (div_pos (lt_of_not_le hc) hap))

/-- The greedy knapsack value is at most R times the capacity when every
ratio is at most R. -/
theorem mochilaGo_valor_le (s : List Articulo) (c R : ℚ)
    (hw : ∀ a ∈ s, 0 < a.peso)
    (hrc : ∀ a ∈ s, a.ratio = a.valor / a.peso)
    (hR : ∀ a ∈ s, a.ratio ≤ R) (hR0 : 0 ≤ R) (hc0 : 0 ≤ c) :
    (mochilaGo s c).2 ≤ R * c := by
  induction s generalizing c with
  | nil =>
    simp only [mochilaGo]
    positivity
  | cons a rest ih =>
    have hw' : ∀ x ∈ rest, 0 < x.peso := fun x hx => hw x (List.mem_cons_of_mem _ hx)
    have hrc' : ∀ x ∈ rest, x.ratio = x.valor / x.peso :=
      fun x hx => hrc x (List.mem_cons_of_mem _ hx)
    have hR' : ∀ x ∈ rest, x.ratio ≤ R := fun x hx => hR x (List.mem_cons_of_mem _ hx)
    have hap : 0 < a.peso := hw a (List.mem_cons_self a rest)
    have hval : a.valor = a.ratio * a.peso := by
      rw [hrc a (List.mem_cons_self a rest)]
      field_simp
    rw [mochilaGo]
    by_cases hc : c ≤ 0
    · rw [if_pos hc]
      have : c = 0 := le_antisymm hc hc0
      simp [this]
    · by_cases hfit : a.peso ≤ c
      · rw [if_neg hc, if_pos hfit]
        have h1 := ih (c - a.peso) hw' hrc' hR' (by linarith)
        have h2 : a.valor ≤ R * a.peso := by
          rw [hval]
          exact mul_le_mul_of_nonneg_right (hR a (List.mem_cons_self a rest)) hap.le
        show a.valor + (mochilaGo rest (c - a.peso)).2 ≤ R * c
        have hexp : R * (c - a.peso) = R * c - R * a.peso := by ring
        linarith [hexp ▸ h1]
      · rw [if_neg hc, if_neg hfit]
        show a.valor * (c / a.peso) ≤ R * c
        have hfr : a.valor * (c / a.peso) = a.ratio * c := by
          rw [hval]
          field_simp
          ring
        rw [hfr]
        exact mul_le_mul_of_nonneg_right (hR a (List.mem_cons_self a rest)) hc0

/-- The greedy knapsack value is monotone in the capacity. -/
theorem mochilaGo_valor_mono (s : List Articulo) (c c' : ℚ)
    (hw : ∀ a ∈ s, 0 < a.peso) (hv : ∀ a ∈ s, 0 ≤ a.valor)
    (hcc : c ≤ c') :
    (mochilaGo s c).2 ≤ (mochilaGo s c').2 := by
  induction s generalizing c c' with
  | nil => simp [mochilaGo]
  | cons a rest ih =>
    have hw' : ∀ x ∈ rest, 0 < x.peso := fun x hx => hw x (List.mem_cons_of_mem _ hx)
    have hv' : ∀ x ∈ rest, 0 ≤ x.valor := fun x hx => hv x (List.mem_cons_of_mem _ hx)
    have hap : 0 < a.peso := hw a (List.mem_cons_self a rest)
    have hav : 0 ≤ a.valor := hv a (List.mem_cons_self a rest)
    by_cases hc : c ≤ 0
    · rw [mochilaGo, if_pos hc]
      exact mochilaGo_valor_nonneg _ _ hw hv
    · have hc' : ¬ c' ≤ 0 := by
        have := lt_of_not_le hc
        linarith
      simp only [mochilaGo]
      rw [if_neg hc, if_neg hc']
      by_cases hfit : a.peso ≤ c
      · have hfit' : a.peso ≤ c' := le_trans hfit hcc
        rw [if_pos hfit, if_pos hfit']
        show a.valor + (mochilaGo rest (c - a.peso)).2 ≤
          a.valor + (mochilaGo rest (c' - a.peso)).2
        have := ih (c - a.peso) (c' - a.peso) hw' hv' (by linarith)
        linarith
      · rw [if_neg hfit]
        by_cases hfit' : a.peso ≤ c'
        · rw [if_pos hfit']
          show a.valor * (c / a.peso) ≤
            a.valor + (mochilaGo rest (c' - a.peso)).2
          have h1 : a.valor * (c / a.peso) ≤ a.valor :=
            mul_le_of_le_one_right hav ((div_le_one hap).mpr (lt_of_not_le hfit).le)
          have h2 : 0 ≤ (mochilaGo rest (c' - a.peso)).2 :=
            mochilaGo_valor_nonneg _ _ hw' hv'
          linarith
        · rw [if_neg hfit']
          show a.valor * (c / a.peso) ≤ a.valor * (c' / a.peso)
          apply mul_le_mul_of_nonneg_left ?_ hav
          exact div_le_div_of_nonneg_right hcc hap.le

/-- Lipschitz property of the greedy knapsack value in the capacity:
lowering the capacity by d ≥ 0 lowers the value by at most R·d when all
ratios are at most R. -/
theorem mochilaGo_valor_lipschitz (R d : ℚ) (hR0 : 0 ≤ R) (hd : 0 ≤ d) :
    ∀ s : List Articulo, (∀ a ∈ s, 0 < a.peso) → (∀ a ∈ s, 0 ≤ a.valor) →
    (∀ a ∈ s, a.ratio = a.valor / a.peso) → (∀ a ∈ s, a.ratio ≤ R) →
    ∀ c : ℚ, (mochilaGo s c).2 ≤ (mochilaGo s (c - d)).2 + R * d := by
  intro s
  induction s with
  | nil =>
    intro _ _ _ _ c
    simp only [mochilaGo]
    positivity
  | cons a rest ih =>
    intro hw hv hrc hR c
    have hw' : ∀ x ∈ rest, 0 < x.peso := fun x hx => hw x (List.mem_cons_of_mem _ hx)
    have hv' : ∀ x ∈ rest, 0 ≤ x.valor := fun x hx => hv x (List.mem_cons_of_mem _ hx)
    have hrc' : ∀ x ∈ rest, x.ratio = x.valor / x.peso :=
      fun x hx => hrc x (List.mem_cons_of_mem _ hx)
    have hR' : ∀ x ∈ rest, x.ratio ≤ R := fun x hx => hR x (List.mem_cons_of_mem _ hx)
    have hap : 0 < a.peso := hw a (List.mem_cons_self a rest)
    have hval : a.valor = a.ratio * a.peso := by
      rw [hrc a (List.mem_cons_self a rest)]
      field_simp
    have haR : a.ratio ≤ R := hR a (List.mem_cons_self a rest)
    by_cases hc : c ≤ 0
    · rw [mochilaGo, if_pos hc]
      have h2 := mochilaGo_valor_nonneg (a :: rest) (c - d) hw hv
      have h3 : (0 : ℚ) ≤ R * d := mul_nonneg hR0 hd
      show (0 : ℚ) ≤ (mochilaGo (a :: rest) (c - d)).2 + R * d
      linarith
    · by_cases hcd : c - d ≤ 0
      · have h0 : (mochilaGo (a :: rest) (c - d)).2 = 0 := by
          rw [mochilaGo_nonpos _ _ hcd]
        have h1 := mochilaGo_valor_le (a :: rest) c R hw hrc hR hR0
          (le_of_lt (lt_of_not_le hc))
        have h2 : R * c ≤ R * d := mul_le_mul_of_nonneg_left (by linarith) hR0
        linarith
      · simp only [mochilaGo]
        rw [if_neg hc, if_neg hcd]
        by_cases hfit2 : a.peso ≤ c - d
        · have hfit1 : a.peso ≤ c := by linarith
          rw [if_pos hfit1, if_pos hfit2]
          show a.valor + (mochilaGo rest (c - a.peso)).2 ≤
            a.valor + (mochilaGo rest (c - d - a.peso)).2 + R * d
          have halign : c - d - a.peso = c - a.peso - d := by ring
          rw [halign]
          have := ih hw' hv' hrc' hR' (c - a.peso)
          linarith
        · by_cases hfit1 : a.peso ≤ c
          · rw [if_pos hfit1, if_neg hfit2]
            show a.valor + (mochilaGo rest (c - a.peso)).2 ≤
              a.valor * ((c - d) / a.peso) + R * d
            have hvle := mochilaGo_valor_le rest (c - a.peso) R hw' hrc' hR' hR0
              (by linarith)
            have hkey : a.ratio * (a.peso - c + d) ≤ R * (a.peso - c + d) :=
              mul_le_mul_of_nonneg_right haR (by linarith [lt_of_not_le hfit2])
            have hfrac : a.valor * ((c - d) / a.peso) = a.ratio * (c - d) := by
              rw [hval]
              field_simp
              ring
            rw [hfrac, hval]
            have hexp1 : R * (c - a.peso) = R * c - R * a.peso := by ring
            have hexp2 : a.ratio * (a.peso - c + d) =
                a.ratio * a.peso - a.ratio * c + a.ratio * d := by ring
            have hexp3 : R * (a.peso - c + d) = R * a.peso - R * c + R * d := by ring
            have hexp4 : a.ratio * (c - d) = a.ratio * c - a.ratio * d := by ring
            nlinarith [hvle, hkey]
          · rw [if_neg hfit1, if_neg hfit2]
            show a.valor * (c / a.peso) ≤ a.valor * ((c - d) / a.peso) + R * d
            have hfr1 : a.valor * (c / a.peso) = a.ratio * c := by
              rw [hval]
              field_simp
              ring
            have hfr2 : a.valor * ((c - d) / a.peso) = a.ratio * (c - d) := by
              rw [hval]
              field_simp
              ring
            rw [hfr1, hfr2]
            have h1 : a.ratio * d ≤ R * d := mul_le_mul_of_nonneg_right haR hd
            have hexp : a.ratio * (c - d) = a.ratio * c - a.ratio * d := by ring
            linarith

/-- Any fractional assignment with non-negative fractions has value at
most R times its weight when every ratio is at most R. -/
theorem valorSum_le_mul_pesoSum (R : ℚ) :
    ∀ ps : List (Articulo × ℚ),
    (∀ p ∈ ps, 0 < p.1.peso) →
    (∀ p ∈ ps, p.1.ratio = p.1.valor / p.1.peso) →
    (∀ p ∈ ps, p.1.ratio ≤ R) →
    (∀ p ∈ ps, 0 ≤ p.2) →
    valorSum ps ≤ R * pesoSum ps := by
  intro ps
  induction ps with
  | nil =>
    intro _ _ _ _
    simp [valorSum, pesoSum]
  | cons p ps ih =>
    intro hw hrc hR hf
    have hw' : ∀ q ∈ ps, 0 < q.1.peso := fun q hq => hw q (List.mem_cons_of_mem _ hq)
    have hrc' : ∀ q ∈ ps, q.1.ratio = q.1.valor / q.1.peso :=
      fun q hq => hrc q (List.mem_cons_of_mem _ hq)
    have hR' : ∀ q ∈ ps, q.1.ratio ≤ R := fun q hq => hR q (List.mem_cons_of_mem _ hq)
    have hf' : ∀ q ∈ ps, 0 ≤ q.2 := fun q hq => hf q (List.mem_cons_of_mem _ hq)
    have hap : 0 < p.1.peso := hw p (List.mem_cons_self p ps)
    have hval : p.1.valor = p.1.ratio * p.1.peso := by
      rw [hrc p (List.mem_cons_self p ps)]
      field_simp
    have h1 : p.1.valor * p.2 ≤ R * (p.1.peso * p.2) := by
      rw [hval]
      have hre : p.1.ratio * p.1.peso * p.2 = p.1.ratio * (p.1.peso * p.2) := by ring
      rw [hre]
      exact mul_le_mul_of_nonneg_right (hR p (List.mem_cons_self p ps))
        (mul_nonneg hap.le (hf p (List.mem_cons_self p ps)))
    have h2 := ih hw' hrc' hR' hf'
    simp only [valorSum, pesoSum, List.map_cons, List.sum_cons] at h2 ⊢
    have hexp : R * (p.1.peso * p.2 + (ps.map fun q => q.1.peso * q.2).sum) =
        R * (p.1.peso * p.2) + R * (ps.map fun q => q.1.peso * q.2).sum := by ring
    rw [hexp]
    exact add_le_add h1 h2

/-- Greedy dominance: for items listed in non-increasing ratio order
with positive weights, non-negative values and consistent ratios, any
fractional assignment (fractions in [0, 1]) has value at most the
greedy value at capacity equal to the weight the assignment uses. -/
theorem valorSum_le_mochilaGo :
    ∀ ps : List (Articulo × ℚ),
    List.Pairwise (fun a b => b.ratio ≤ a.ratio) (ps.map Prod.fst) →
    (∀ p ∈ ps, 0 < p.1.peso) →
    (∀ p ∈ ps, 0 ≤ p.1.valor) →
    (∀ p ∈ ps, p.1.ratio = p.1.valor / p.1.peso) →
    (∀ p ∈ ps, 0 ≤ p.2 ∧ p.2 ≤ 1) →
    valorSum ps ≤ (mochilaGo (ps.map Prod.fst) (pesoSum ps)).2 := by
  intro ps
  induction ps with
  | nil =>
    intro _ _ _ _ _
    simp [valorSum, pesoSum, mochilaGo]
  | cons p ps ih =>
    intro hs hw hv hrc hf
    simp only [List.map_cons] at hs ⊢
    have hw' : ∀ q ∈ ps, 0 < q.1.peso := fun q hq => hw q (List.mem_cons_of_mem _ hq)
    have hv' : ∀ q ∈ ps, 0 ≤ q.1.valor := fun q hq => hv q (List.mem_cons_of_mem _ hq)
    have hrc' : ∀ q ∈ ps, q.1.ratio = q.1.valor / q.1.peso :=
      fun q hq => hrc q (List.mem_cons_of_mem _ hq)
    have hf' : ∀ q ∈ ps, 0 ≤ q.2 ∧ q.2 ≤ 1 := fun q hq => hf q (List.mem_cons_of_mem _ hq)
    have hap : 0 < p.1.peso := hw p (List.mem_cons_self p ps)
    have hav : 0 ≤ p.1.valor := hv p (List.mem_cons_self p ps)
    have hval : p.1.valor = p.1.ratio * p.1.peso := by
      rw [hrc p (List.mem_cons_self p ps)]
      field_simp
    have har0 : 0 ≤ p.1.ratio := by
      rw [hrc p (List.mem_cons_self p ps)]
      exact div_nonneg hav hap.le
    have hf1 : 0 ≤ p.2 := (hf p (List.mem_cons_self p ps)).1
    have hf2 : p.2 ≤ 1 := (hf p (List.mem_cons_self p ps)).2
    have hRm : ∀ x ∈ ps.map Prod.fst, x.ratio ≤ p.1.ratio :=
      (List.pairwise_cons.mp hs).1
    have hRtail : ∀ q ∈ ps, q.1.ratio ≤ p.1.ratio :=
      fun q hq => hRm q.1 (List.mem_map_of_mem Prod.fst hq)
    have hRall : ∀ q ∈ p :: ps, q.1.ratio ≤ p.1.ratio := by
      intro q hq
      rcases List.mem_cons.mp hq with rfl | hq'
      · exact le_refl _
      · exact hRtail q hq'
    have hwm : ∀ x ∈ ps.map Prod.fst, 0 < x.peso := by
      intro x hx
      obtain ⟨q, hq, rfl⟩ := List.mem_map.mp hx
      exact hw' q hq
    have hvm : ∀ x ∈ ps.map Prod.fst, 0 ≤ x.valor := by
      intro x hx
      obtain ⟨q, hq, rfl⟩ := List.mem_map.mp hx
      exact hv' q hq
    have hrcm : ∀ x ∈ ps.map Prod.fst, x.ratio = x.valor / x.peso := by
      intro x hx
      obtain ⟨q, hq, rfl⟩ := List.mem_map.mp hx
      exact hrc' q hq
    by_cases hW0 : pesoSum (p :: ps) ≤ 0
    · have hnn : (mochilaGo (p.1 :: ps.map Prod.fst) (pesoSum (p :: ps))).2 = 0 := by
        rw [mochilaGo_nonpos _ _ hW0]
      rw [hnn]
      have hB := valorSum_le_mul_pesoSum p.1.ratio (p :: ps) hw hrc hRall
        (fun q hq => (hf q hq).1)
      have hle0 : p.1.ratio * pesoSum (p :: ps) ≤ p.1.ratio * 0 :=
        mul_le_mul_of_nonneg_left hW0 har0
      simp only [mul_zero] at hle0
      linarith
    · rw [mochilaGo, if_neg hW0]
      by_cases hfit : p.1.peso ≤ pesoSum (p :: ps)
      · rw [if_pos hfit]
        show valorSum (p :: ps) ≤ p.1.valor +
          (mochilaGo (ps.map Prod.fst) (pesoSum (p :: ps) - p.1.peso)).2
        have hih := ih hs.of_cons hw' hv' hrc' hf'
        have hδ0 : 0 ≤ p.1.peso * (1 - p.2) := mul_nonneg hap.le (by linarith)
        have hlip := mochilaGo_valor_lipschitz p.1.ratio (p.1.peso * (1 - p.2))
          har0 hδ0 (ps.map Prod.fst) hwm hvm hrcm hRm (pesoSum ps)
        have halign : pesoSum ps - p.1.peso * (1 - p.2) =
            pesoSum (p :: ps) - p.1.peso := by
          simp only [pesoSum, List.map_cons, List.sum_cons]
          ring
        rw [halign] at hlip
        have hr : p.1.ratio * (p.1.peso * (1 - p.2)) = p.1.valor * (1 - p.2) := by
          rw [hval]
          ring
        rw [hr] at hlip
        simp only [valorSum, List.map_cons, List.sum_cons]
        simp only [valorSum] at hih
        have hvexp : p.1.valor * (1 - p.2) = p.1.valor - p.1.valor * p.2 := by ring
        rw [hvexp] at hlip
        linarith
      · rw [if_neg hfit]
        show valorSum (p :: ps) ≤ p.1.valor * (pesoSum (p :: ps) / p.1.peso)
        have hfr : p.1.valor * (pesoSum (p :: ps) / p.1.peso) =
            p.1.ratio * pesoSum (p :: ps) := by
          rw [hval]
          field_simp
          ring
        rw [hfr]
        have hB := valorSum_le_mul_pesoSum p.1.ratio ps hw' hrc' hRtail
          (fun q hq => (hf' q hq).1)
        have h1 : p.1.valor * p.2 = p.1.ratio * (p.1.peso * p.2) := by
          rw [hval]
          ring
        simp only [valorSum, pesoSum, List.map_cons, List.sum_cons] at hB ⊢
        have hexp : p.1.ratio * (p.1.peso * p.2 +
            (ps.map fun q => q.1.peso * q.2).sum) =
            p.1.ratio * (p.1.peso * p.2) +
            p.1.ratio * (ps.map fun q => q.1.peso * q.2).sum := by ring
        rw [hexp]
        linarith

/-- A permutation of the items of a paired list lifts to a permutation
of the paired list itself. -/
theorem exists_perm_pairs (l₂ : List Articulo) :
    ∀ ps : List (Articulo × ℚ), (ps.map Prod.fst).Perm l₂ →
    ∃ ps₂ : List (Articulo × ℚ), ps.Perm ps₂ ∧ ps₂.map Prod.fst = l₂ := by
  induction l₂ with
  | nil =>
    intro ps h
    have hmap : ps.map Prod.fst = [] := List.perm_nil.mp h
    have hps : ps = [] := List.map_eq_nil_iff.mp hmap
    exact ⟨[], by rw [hps], rfl⟩
  | cons b l₂' ih =>
    intro ps h
    have hb : b ∈ ps.map Prod.fst := h.symm.subset (List.mem_cons_self b l₂')
    obtain ⟨q, hq, hqb⟩ := List.mem_map.mp hb
    obtain ⟨u, v, rfl⟩ := List.append_of_mem hq
    have hmid : (u ++ q :: v).Perm (q :: (u ++ v)) := List.perm_middle
    have hmapmid := hmid.map Prod.fst
    have h2 : (q.1 :: ((u ++ v).map Prod.fst)).Perm (b :: l₂') := by
      refine List.Perm.trans ?_ h
      simpa using hmapmid.symm
    rw [hqb] at h2
    have h3 := h2.cons_inv
    obtain ⟨ps₂', hperm', hmap'⟩ := ih (u ++ v) h3
    refine ⟨q :: ps₂', hmid.trans (hperm'.cons q), ?_⟩
    simp [hmap', hqb]

theorem valorSum_perm {ps qs : List (Articulo × ℚ)} (h : ps.Perm qs) :
    valorSum ps = valorSum qs := by
  unfold valorSum
  exact (h.map fun p => p.1.valor * p.2).sum_eq

theorem pesoSum_perm {ps qs : List (Articulo × ℚ)} (h : ps.Perm qs) :
    pesoSum ps = pesoSum qs := by
  unfold pesoSum
  exact (h.map fun p => p.1.peso * p.2).sum_eq

/-- Claim C2 counterexample: with the single positively-weighted item
(peso 1, valor -5) and capacity 1, the greedy returns total value -5,
while the feasible fraction assignment [0] has value 0 > -5, so the
claim as stated (optimality for arbitrary values) is false. -/
theorem claim_C2_counterexample :
    (mochila_fraccionaria_voraz [Articulo.crear 1 (-5) ""] 1).2 = -5 ∧
    List.length [(0 : ℚ)] = List.length [Articulo.crear 1 (-5) ""] ∧
    ((0 : ℚ) ≤ 0 ∧ (0 : ℚ) ≤ 1) ∧
    pesoSum ([Articulo.crear 1 (-5) ""].zip [(0 : ℚ)]) ≤ 1 ∧
    (mochila_fraccionaria_voraz [Articulo.crear 1 (-5) ""] 1).2 <
      valorSum ([Articulo.crear 1 (-5) ""].zip [(0 : ℚ)]) := by
  refine ⟨?_, rfl, ?_, ?_, ?_⟩ <;>
    norm_num [mochila_fraccionaria_voraz, sortByRatioDesc, List.insertionSort,
      List.orderedInsert, Articulo.crear, mochilaGo, pesoSum, valorSum, List.zip]

/-- Claim C2 (amended): for every list of items with positive weights
and NON-NEGATIVE values (with the stored ratio equal to valor / peso, as
Articulo.__init__ guarantees for positive weights) and every capacity
≥ 0, no assignment of fractions in [0, 1] whose total weight is within
the capacity achieves a value above the greedy total value; and on the
spec's example the greedy total value is 240. -/
theorem claim_C2 (articulos : List Articulo) (capacidad : ℚ)
    (hw : ∀ a ∈ articulos, 0 < a.peso)
    (hv : ∀ a ∈ articulos, 0 ≤ a.valor)
    (hrc : ∀ a ∈ articulos, a.ratio = a.valor / a.peso)
    (hcap : 0 ≤ capacidad) :
    (∀ fs : List ℚ, fs.length = articulos.length →
      (∀ f ∈ fs, 0 ≤ f ∧ f ≤ 1) →
      pesoSum (articulos.zip fs) ≤ capacidad →
      valorSum (articulos.zip fs) ≤ (mochila_fraccionaria_voraz articulos capacidad).2) ∧
    (mochila_fraccionaria_voraz
        [Articulo.crear 10 60 "", Articulo.crear 20 100 "", Articulo.crear 30 120 ""]
        50).2 = 240 := by
  constructor
  · intro fs hlen hfs hwle
    have hmapfst : (articulos.zip fs).map Prod.fst = articulos :=
      List.map_fst_zip _ _ (le_of_eq hlen.symm)
    have hperm : (sortByRatioDesc articulos).Perm articulos :=
      List.perm_insertionSort _ _
    have hpm : ((articulos.zip fs).map Prod.fst).Perm (sortByRatioDesc articulos) := by
      rw [hmapfst]
      exact hperm.symm
    obtain ⟨ps₂, hp2, hmap2⟩ := exists_perm_pairs (sortByRatioDesc articulos)
      (articulos.zip fs) hpm
    have hmem : ∀ q ∈ ps₂, q ∈ articulos.zip fs := fun q hq => hp2.symm.subset hq
    have hsorted : List.Pairwise (fun a b => b.ratio ≤ a.ratio) (ps₂.map Prod.fst) := by
      rw [hmap2]
      exact List.sorted_insertionSort _ _
    have hw2 : ∀ q ∈ ps₂, 0 < q.1.peso := by
      intro q hq
      obtain ⟨x, f⟩ := q
      exact hw x (List.of_mem_zip (hmem _ hq)).1
    have hv2 : ∀ q ∈ ps₂, 0 ≤ q.1.valor := by
      intro q hq
      obtain ⟨x, f⟩ := q
      exact hv x (List.of_mem_zip (hmem _ hq)).1
    have hrc2 : ∀ q ∈ ps₂, q.1.ratio = q.1.valor / q.1.peso := by
      intro q hq
      obtain ⟨x, f⟩ := q
      exact hrc x (List.of_mem_zip (hmem _ hq)).1
    have hf2 : ∀ q ∈ ps₂, 0 ≤ q.2 ∧ q.2 ≤ 1 := by
      intro q hq
      obtain ⟨x, f⟩ := q
      exact hfs f (List.of_mem_zip (hmem _ hq)).2
    have hmain := valorSum_le_mochilaGo ps₂ hsorted hw2 hv2 hrc2 hf2
    rw [hmap2] at hmain
    have hweq : pesoSum (articulos.zip fs) = pesoSum ps₂ := pesoSum_perm hp2
    have hwle2 : pesoSum ps₂ ≤ capacidad := by
      rw [← hweq]
      exact hwle
    have hmono := mochilaGo_valor_mono (sortByRatioDesc articulos)
      (pesoSum ps₂) capacidad
      (fun a ha => hw a (hperm.subset ha)) (fun a ha => hv a (hperm.subset ha)) hwle2
    show valorSum (articulos.zip fs) ≤ (mochilaGo (sortByRatioDesc articulos) capacidad).2
    rw [valorSum_perm hp2]
    exact le_trans hmain hmono
  · norm_num [mochila_fraccionaria_voraz, sortByRatioDesc, List.insertionSort,
      List.orderedInsert, Articulo.crear, mochilaGo]

theorem claim_C2_witness :
    (mochila_fraccionaria_voraz
        [Articulo.crear 10 60 "", Articulo.crear 20 100 "", Articulo.crear 30 120 ""]
        50).2 = 240 :=
  (claim_C2 [Articulo.crear 10 60 "", Articulo.crear 20 100 "", Articulo.crear 30 120 ""]
    50
    (by intro a ha; simp only [List.mem_cons, List.not_mem_nil, or_false] at ha
        rcases ha with rfl | rfl | rfl <;> norm_num [Articulo.crear])
    (by intro a ha; simp only [List.mem_cons, List.not_mem_nil, or_false] at ha
        rcases ha with rfl | rfl | rfl <;> norm_num [Articulo.crear])
    (by intro a ha; simp only [List.mem_cons, List.not_mem_nil, or_false] at ha
        rcases ha with rfl | rfl | rfl <;> norm_num [Articulo.crear])
    (by norm_num)).2
